import Mathlib

/-!
The build, publish and collect pipeline of sphinxsrv.

A shallow embedding of `build.go`, `github.go` and the directory bootstrap of
`sphinxsrv.go`.  Go strings are modelled as lists of characters, the file
system as the three directory listings the daemon reads and writes. The
result of an external command or system call the code branches on is decided
by the state where the state records enough, and is an input supplied by the
environment otherwise.
-/

namespace SphinxSrv

/-- Go strings, as character lists. The only separator bytes the code looks
for (`/`, `-`) are ASCII, so splitting by character agrees with splitting by
byte. -/
abbrev Str := List Char

/-! ## Library functions used by the source -/

/-- Go's `strings.Split(s, sep)` for a one-character separator: the
substrings between the occurrences of `sep`; `n` occurrences give `n + 1`
substrings, and the empty string gives one empty substring. -/
def stringsSplit (s : Str) (sep : Char) : List Str :=
  match s with
  | [] => [[]]
  | c :: cs =>
    if c = sep then [] :: stringsSplit cs sep
    else
      match stringsSplit cs sep with
      | [] => [[c]]
      | seg :: segs => (c :: seg) :: segs

/-- Go's `strings.Join(elems, "/")`. -/
def stringsJoin : List Str → Str
  | [] => []
  | [e] => e
  | e :: es => e ++ '/' :: stringsJoin es

/-- One path element processed by `filepath.Clean`; `out` holds the elements
written so far, last one first. Empty and `.` elements are dropped, a `..`
element removes the last real element when there is one, is dropped at the
root, and is kept otherwise. -/
def cleanStep (rooted : Bool) (out : List Str) (e : Str) : List Str :=
  if e = [] ∨ e = ['.'] then out
  else if e = ['.', '.'] then
    match out with
    | [] => if rooted then [] else [e]
    | top :: rest =>
      if top = ['.', '.'] then (if rooted then out else e :: out) else rest
  else e :: out

/-- Go's `filepath.Clean` on Unix, element by element. -/
def filepathClean (path : Str) : Str :=
  match path with
  | [] => ['.']
  | c :: _ =>
    let rooted := decide (c = '/')
    let out := (stringsSplit path '/').foldl (cleanStep rooted) []
    let body := stringsJoin out.reverse
    if rooted then '/' :: body
    else if body = [] then ['.'] else body

/-- Go's `filepath.Join` on Unix: the elements from the first non-empty one
on, joined by `/` and cleaned; the empty string when every element is
empty. -/
def filepathJoin : List Str → Str
  | [] => []
  | e :: es => if e = [] then filepathJoin es else filepathClean (stringsJoin (e :: es))

/-! ## Configuration and requests (`sphinxsrv.go`, `build.go`) -/

/-- The three package-level directory variables of `sphinxsrv.go`. -/
structure Config where
  repoDir : Str
  branchesDir : Str
  buildOutputDir : Str

/-- The directory names `main` derives from `${HOME}`. -/
def mainConfig (home : Str) : Config :=
  let sphinxSrvHome := filepathJoin [home, ".sphinxsrv".toList]
  { branchesDir := filepathJoin [sphinxSrvHome, "branches".toList]
    buildOutputDir := filepathJoin [sphinxSrvHome, "buildoutput".toList]
    repoDir := filepathJoin [sphinxSrvHome, "repo".toList] }

/-- A request to the branch builder. -/
structure buildReq where
  Ref : Str
  RepoURL : Str
  Commit : Str
  deriving DecidableEq, Repr

/-- The request `submitBuildRequest(url, ref, commit)` sends to the worker. -/
def submitBuildRequest (url ref commit : Str) : buildReq :=
  { Ref := ref, RepoURL := url, Commit := commit }

/-! ## File-system state -/

/-- What the code reads from an `os.FileInfo`. -/
structure FileInfo where
  isDir : Bool
  mode : Nat
  deriving DecidableEq, Repr

/-- Go's `os.ModeDir`. -/
def ModeDir : Nat := 2 ^ 31

/-- Go's `os.ModeSymlink`. -/
def ModeSymlink : Nat := 2 ^ 27

/-- The `FileInfo` of a directory made with permission bits `0700`. -/
def newDirInfo : FileInfo := { isDir := true, mode := ModeDir + 448 }

/-- The part of the file system the daemon works on. `branchesDir` and
`buildOutputDir` themselves are taken to exist, as `main` leaves them. -/
structure State where
  /-- The result of `os.Stat(repoDir)`; `none` when the call fails. -/
  repo : Option FileInfo
  /-- The entries of `branchesDir`: name and link target. -/
  branches : List (Str × Str)
  /-- The entry names of `buildOutputDir`, in `Readdirnames` order. -/
  outputs : List Str
  /-- The temporary working directories that exist. -/
  temps : List Str
  deriving DecidableEq, Repr

/-- The source's `dirExists`, on the result of `os.Stat`. -/
def dirExists (stat : Option FileInfo) : Bool :=
  match stat with
  | none => false
  | some fi => fi.isDir || fi.mode == ModeSymlink

/-- A name a directory entry can have. -/
def validName (n : Str) : Bool :=
  decide (n ≠ [] ∧ n ≠ ['.'] ∧ n ≠ ['.', '.'] ∧ '/' ∉ n)

/-- The paths `allBuildOutputs` gives to the entries of `buildOutputDir`. -/
def outputPaths (cfg : Config) (st : State) : List Str :=
  st.outputs.map (fun n => filepathJoin [cfg.buildOutputDir, n])

/-- The link targets of the entries of `branchesDir`. -/
def linkTargets (st : State) : List Str :=
  st.branches.map (fun e => e.2)

/-- The elements of a cleaned path: the root is one empty element, the
current directory no element. -/
def pathElems (path : Str) : List Str :=
  let clean := filepathClean path
  if clean = ['/'] then [[]] else if clean = ['.'] then [] else stringsSplit clean '/'

/-- The paths the state records as existing: the two directories of `main`,
the mirror when `os.Stat` finds it, the entries of `buildOutputDir`, the
branch pointers and the temporary directories. -/
def knownPaths (cfg : Config) (st : State) : List Str :=
  [cfg.buildOutputDir, cfg.branchesDir]
    ++ (match st.repo with
        | some _ => [cfg.repoDir]
        | none => [])
    ++ outputPaths cfg st
    ++ st.branches.map (fun e => filepathJoin [cfg.branchesDir, e.1])
    ++ st.temps

/-- Something is at `path` according to the state: the path is the root, the
current directory or a chain of `..`, or it is a recorded path or leads to
one. -/
def pathExists (cfg : Config) (st : State) (path : Str) : Bool :=
  let elems := pathElems path
  decide (elems = [[]]) || elems.all (fun e => decide (e = ['.', '.']))
    || (knownPaths cfg st).any (fun k => elems.isPrefixOf (pathElems k))

/-- The elements of `path` below the directory `dir`, when `path` leads
through `dir`. -/
def elemsBelow (dir path : Str) : Option (List Str) :=
  let d := pathElems dir
  let p := pathElems path
  if d.isPrefixOf p then
    match p.drop d.length with
    | [] => some []
    | e :: rest => if e = [] ∨ e = ['.', '.'] then none else some (e :: rest)
  else none

/-- The state records that the directory `path` would be put into is not
there: `path` leads through an entry that `buildOutputDir` or `branchesDir`
does not have, or through a mirror directory that `os.Stat` does not find. -/
def parentMissing (cfg : Config) (st : State) (path : Str) : Bool :=
  (match elemsBelow cfg.buildOutputDir path with
    | some (n :: _ :: _) => decide (n ∉ st.outputs)
    | _ => false)
  || (match elemsBelow cfg.branchesDir path with
    | some (n :: _ :: _) => !st.branches.any (fun e => decide (e.1 = n))
    | _ => false)
  || (match st.repo, elemsBelow cfg.repoDir path with
    | none, some (_ :: _) => true
    | _, _ => false)

/-- The entry of `buildOutputDir` that `path` names, if it names one. -/
def entryName (cfg : Config) (path : Str) : Option Str :=
  match (stringsSplit path '/').getLast? with
  | none => none
  | some n =>
    if validName n = true ∧ filepathJoin [cfg.buildOutputDir, n] = path then some n else none

/-! ## Startup (`sphinxsrv.go`) -/

/-- The source's `mkdirOrDie` on the repository directory: `os.Mkdir` fails
with an already-exists error when something is there, which is ignored; any
other error (`mkdirErr`) ends the process, written `none`. -/
def mkdirOrDie (mkdirErr : Bool) (stat : Option FileInfo) : Option (Option FileInfo) :=
  match stat with
  | some fi => some (some fi)
  | none => if mkdirErr then none else some (some newDirInfo)

/-- The directory bootstrap of `main`: `mkdirOrDie` on the home, branches and
build-output directories (whose existence the state does not track; `dirErr`
says that one of these calls ended the process) and then on `repoDir`. -/
def mainBootstrap (dirErr repoErr : Bool) (st : State) : Option State :=
  if dirErr then none
  else
    match mkdirOrDie repoErr st.repo with
    | none => none
    | some r => some { st with repo := r }

/-! ## The branch builder (`build.go`) -/

/-- An external command: program, arguments and working directory. -/
structure Cmd where
  name : Str
  args : List Str
  dir : Str
  deriving DecidableEq, Repr

/-- The errors `isNotEmpty` tells apart. -/
inductive OsError where
  | linkError (errno : Nat)
  | otherError
  deriving DecidableEq, Repr

/-- The value of `syscall.ENOTEMPTY` on Linux. -/
def ENOTEMPTY : Nat := 39

/-- The value of `syscall.EEXIST` on Linux. -/
def EEXIST : Nat := 17

/-- The value of `syscall.ENOENT` on Linux. -/
def ENOENT : Nat := 2

/-- The source's `isNotEmpty`. -/
def isNotEmpty (err : OsError) : Bool :=
  match err with
  | .linkError errno => errno == ENOTEMPTY
  | .otherError => false

/-- What the environment answers to the calls of one `branchBuilder` run. -/
structure BuildEnv where
  /-- `git clone` into `repoDir` fails. -/
  cloneErr : Bool
  /-- `git fetch` fails. -/
  fetchErr : Bool
  /-- `git merge` fails. -/
  mergeErr : Bool
  /-- The directory `ioutil.TempDir` creates; `none` when it fails. -/
  tempDir : Option Str
  /-- `git clone -b` into the temporary directory fails. -/
  tempCloneErr : Bool
  /-- `make html` fails. -/
  makeErr : Bool
  /-- The error of `os.Rename`, if any, when the state does not decide the
  call. -/
  renameErr : Option OsError
  /-- `os.Symlink` fails for a reason other than an existing link path. -/
  symlinkErr : Bool
  /-- The deferred `os.RemoveAll(tempDir)` fails. -/
  removeTempErr : Bool

/-- The place at which `branchBuilder` returns. -/
inductive Outcome where
  | cloneFailed
  | fetchFailed
  | mergeFailed
  | tempDirFailed
  | tempCloneFailed
  | makeFailed
  | skippedDuplicate
  | renameFailed
  | symlinkFailed
  | deployed
  deriving DecidableEq, Repr

/-- The result of one `branchBuilder` run. -/
structure BuildRun where
  outcome : Outcome
  state : State
  cmds : List Cmd
  deriving DecidableEq, Repr

/-- The first two lines of `branchBuilder`: the element of `splitRef` at
index `len(splitRef)-1`; `none` stands for an index out of range. -/
def branchNameOf (ref : Str) : Option Str :=
  let splitRef := stringsSplit ref '/'
  splitRef[splitRef.length - 1]?

/-- The permanent path `branchBuilder` computes for a build. -/
def buildOutputPath (buildOutputDir branchName commit : Str) : Str :=
  filepathJoin [buildOutputDir, branchName ++ '-' :: commit]

/-- The command `git clone <url> <repoDir>`. -/
def gitClone (cfg : Config) (req : buildReq) : Cmd :=
  { name := "git".toList, args := ["clone".toList, req.RepoURL, cfg.repoDir], dir := [] }

/-- The command `git fetch <url> <ref>`, run in `repoDir`. -/
def gitFetch (cfg : Config) (req : buildReq) : Cmd :=
  { name := "git".toList, args := ["fetch".toList, req.RepoURL, req.Ref], dir := cfg.repoDir }

/-- The command `git merge FETCH_HEAD`, run in `repoDir`. -/
def gitMerge (cfg : Config) : Cmd :=
  { name := "git".toList, args := ["merge".toList, "FETCH_HEAD".toList], dir := cfg.repoDir }

/-- The command `git clone -b <branch> <repoDir> <tempRepoPath>`. -/
def gitCloneBranch (cfg : Config) (branchName tempRepoPath : Str) : Cmd :=
  { name := "git".toList
    args := ["clone".toList, "-b".toList, branchName, cfg.repoDir, tempRepoPath], dir := [] }

/-- The command `make html`, run in the temporary working copy. -/
def makeHtml (tempRepoPath : Str) : Cmd :=
  { name := "make".toList, args := ["html".toList], dir := tempRepoPath }

/-- The deferred `os.RemoveAll(tempDir)`: the code discards its error, so a
removal that fails leaves the directory. -/
def removeTemp (removeErr : Bool) (tempDir : Str) (st : State) : State :=
  if removeErr then st
  else { st with temps := st.temps.filter (fun d => decide (d ≠ tempDir)) }

/-- The call `os.Rename(<tempRepoPath>/_build/html, newpath)` (Go 1.8 and
later). When something is at `newpath` the call fails: `os.Rename` answers
`EEXIST` for a directory before the system call, and the system call refuses
to put a directory on anything else; the model writes `EEXIST` for both.
When the directory `newpath` would be put into is missing, the system call
answers `ENOENT`. Otherwise the environment decides, and a successful rename
adds the entry of `buildOutputDir` that `newpath` names, if it names one. -/
def osRename (envErr : Option OsError) (cfg : Config) (newpath : Str) (st : State) :
    Except OsError State :=
  if pathExists cfg st newpath then .error (.linkError EEXIST)
  else if parentMissing cfg st newpath then .error (.linkError ENOENT)
  else
    match envErr with
    | some err => .error err
    | none =>
      match entryName cfg newpath with
      | some n => .ok { st with outputs := st.outputs ++ [n] }
      | none => .ok st

/-- The call `os.Symlink(buildOutputPath, filepath.Join(branchesDir, branchName))`
on the listing of `branchesDir`: it fails when the link path exists, which is
the case for an existing entry and for the names that make the link path
`branchesDir` itself or its parent; `none` is an error. -/
def osSymlink (envErr : Bool) (target branchName : Str) (st : State) : Option State :=
  if !validName branchName || st.branches.any (fun e => decide (e.1 = branchName)) || envErr then
    none
  else some { st with branches := st.branches ++ [(branchName, target)] }

/-- The part of `branchBuilder` after the temporary directory exists; the
caller runs the deferred removal on the state returned. -/
def buildInTemp (cfg : Config) (env : BuildEnv) (req : buildReq) (branchName tempDir : Str)
    (st : State) (cmds : List Cmd) : BuildRun :=
  let tempRepoPath := filepathJoin [tempDir, "repo".toList]
  let cmds := cmds ++ [gitCloneBranch cfg branchName tempRepoPath]
  if env.tempCloneErr then ⟨.tempCloneFailed, st, cmds⟩
  else
    let cmds := cmds ++ [makeHtml tempRepoPath]
    if env.makeErr then ⟨.makeFailed, st, cmds⟩
    else
      let path := buildOutputPath cfg.buildOutputDir branchName req.Commit
      match osRename env.renameErr cfg path st with
      | .error err =>
        if isNotEmpty err then ⟨.skippedDuplicate, st, cmds⟩
        else ⟨.renameFailed, st, cmds⟩
      | .ok st =>
        match osSymlink env.symlinkErr path branchName st with
        | none => ⟨.symlinkFailed, st, cmds⟩
        | some st => ⟨.deployed, st, cmds⟩

/-- The source's `branchBuilder`; `none` stands for the index out of range
that `branchName_is_last_segment` excludes. -/
def branchBuilder (cfg : Config) (env : BuildEnv) (req : buildReq) (st : State) :
    Option BuildRun :=
  match branchNameOf req.Ref with
  | none => none
  | some branchName =>
    let needClone := !dirExists st.repo
    let cmds := if needClone then [gitClone cfg req] else []
    if needClone && env.cloneErr then some ⟨.cloneFailed, st, cmds⟩
    else
      let st := if needClone then { st with repo := some newDirInfo } else st
      let cmds := cmds ++ [gitFetch cfg req]
      if env.fetchErr then some ⟨.fetchFailed, st, cmds⟩
      else
        let cmds := cmds ++ [gitMerge cfg]
        if env.mergeErr then some ⟨.mergeFailed, st, cmds⟩
        else
          match env.tempDir with
          | none => some ⟨.tempDirFailed, st, cmds⟩
          | some tempDir =>
            let st := { st with temps := tempDir :: st.temps }
            let run := buildInTemp cfg env req branchName tempDir st cmds
            some { run with state := removeTemp env.removeTempErr tempDir run.state }

/-! ## Garbage collection (`build.go`) -/

/-- What the environment answers to the calls of one collection pass. -/
structure GcEnv where
  /-- `os.Open(branchesDir)` fails. -/
  openBranchesErr : Bool
  /-- `Readdirnames` on `branchesDir` fails. -/
  readBranchesErr : Bool
  /-- `os.Readlink` fails on the entry of this name. -/
  readlinkErr : Str → Bool
  /-- `os.Open(buildOutputDir)` fails. -/
  openOutputsErr : Bool
  /-- `Readdirnames` on `buildOutputDir` fails. -/
  readOutputsErr : Bool
  /-- `os.RemoveAll` fails on this path. -/
  removeErr : Str → Bool

/-- The loop of `activeBuildOutputs` over the entries of `branchesDir`. -/
def readlinkLoop (env : GcEnv) : List (Str × Str) → List Str → Option (List Str)
  | [], activeBuildOutputs => some activeBuildOutputs
  | (name, buildOutput) :: rest, activeBuildOutputs =>
    if env.readlinkErr name then none
    else readlinkLoop env rest (activeBuildOutputs ++ [buildOutput])

/-- The source's `activeBuildOutputs`; `none` is the error return. -/
def activeBuildOutputs (env : GcEnv) (st : State) : Option (List Str) :=
  if env.openBranchesErr then none
  else if env.readBranchesErr then none
  else readlinkLoop env st.branches []

/-- The loop of `allBuildOutputs` over the entry names. -/
def joinLoop (cfg : Config) : List Str → List Str → List Str
  | [], allBuildOutputs => allBuildOutputs
  | name :: rest, allBuildOutputs =>
    joinLoop cfg rest (allBuildOutputs ++ [filepathJoin [cfg.buildOutputDir, name]])

/-- The source's `allBuildOutputs`; `none` is the error return. -/
def allBuildOutputs (cfg : Config) (env : GcEnv) (st : State) : Option (List Str) :=
  if env.openOutputsErr then none
  else if env.readOutputsErr then none
  else some (joinLoop cfg st.outputs [])

/-- The inner loop of `cleanupStaleBuildOutputs`: the value of `isActive`. -/
def isActiveLoop (buildOutput : Str) : List Str → Bool
  | [] => false
  | activeDir :: rest => if activeDir = buildOutput then true else isActiveLoop buildOutput rest

/-- The outer loop of `cleanupStaleBuildOutputs`: the value of `toDelete`. -/
def candidateLoop (active : List Str) : List Str → List Str → List Str
  | [], toDelete => toDelete
  | buildOutput :: rest, toDelete =>
    if !isActiveLoop buildOutput active then candidateLoop active rest (toDelete ++ [buildOutput])
    else candidateLoop active rest toDelete

/-- A successful `os.RemoveAll(path)` on the listing of `buildOutputDir`. -/
def osRemoveAll (cfg : Config) (path : Str) (st : State) : State :=
  { st with outputs :=
      st.outputs.filter (fun n => decide (filepathJoin [cfg.buildOutputDir, n] ≠ path)) }

/-- The place at which `cleanupStaleBuildOutputs` returns. -/
inductive GcOutcome where
  | activeFailed
  | allFailed
  | removeFailed
  | cleaned
  deriving DecidableEq, Repr

/-- The removal loop of `cleanupStaleBuildOutputs`. -/
def removeLoop (cfg : Config) (env : GcEnv) : List Str → State → GcOutcome × State
  | [], st => (.cleaned, st)
  | buildOutput :: rest, st =>
    if env.removeErr buildOutput then (.removeFailed, st)
    else removeLoop cfg env rest (osRemoveAll cfg buildOutput st)

/-- The value of `toDelete` in `cleanupStaleBuildOutputs`, when both
enumerations succeed. -/
def staleBuildOutputs (cfg : Config) (env : GcEnv) (st : State) : Option (List Str) :=
  match activeBuildOutputs env st with
  | none => none
  | some active =>
    match allBuildOutputs cfg env st with
    | none => none
    | some all => some (candidateLoop active all [])

/-- The source's `cleanupStaleBuildOutputs`. -/
def cleanupStaleBuildOutputs (cfg : Config) (env : GcEnv) (st : State) : GcOutcome × State :=
  match activeBuildOutputs env st with
  | none => (.activeFailed, st)
  | some active =>
    match allBuildOutputs cfg env st with
    | none => (.allFailed, st)
    | some all => removeLoop cfg env (candidateLoop active all []) st

/-- One iteration of `branchBuilderLoop`: the builder, then the collector. -/
def processRequest (cfg : Config) (benv : BuildEnv) (genv : GcEnv) (req : buildReq)
    (st : State) : Option (Outcome × GcOutcome × State) :=
  match branchBuilder cfg benv req st with
  | none => none
  | some run =>
    let gc := cleanupStaleBuildOutputs cfg genv run.state
    some (run.outcome, gc.1, gc.2)

/-! ## The web hook (`github.go`) -/

/-- The addresses that may send web hook requests. -/
def whitelist : List Str :=
  ["207.97.227.253".toList, "50.57.128.197".toList, "108.171.174.178".toList]

/-- The repository object of the web hook payload. -/
structure githubRepo where
  URL : Str
  deriving DecidableEq, Repr

/-- The fields of the web hook payload the daemon reads. -/
structure githubWebHook where
  Ref : Str
  After : Str
  Repo : githubRepo
  deriving DecidableEq, Repr

/-- What `githubHook` reads from the request. -/
structure HookRequest where
  Method : Str
  /-- The value of `req.Header.Get("X-Forwarded-For")`. -/
  forwardedFor : Str
  /-- The value of `req.FormValue("payload")`. -/
  payload : Str

/-- What `githubHook` writes to the response. -/
inductive HookResponse where
  | notFound
  | internalServerError
  | empty
  deriving DecidableEq, Repr

/-- The loop of `githubHook` over the whitelist: the value of `ok`. -/
def whitelistLoop (reqAddr : Str) : List Str → Bool
  | [] => false
  | whiteAddr :: rest => if reqAddr = whiteAddr then true else whitelistLoop reqAddr rest

/-- The source's `githubHook`; `decode` is the JSON decoder (`none` is a
decoding error), and the second component is the request submitted. -/
def githubHook (decode : Str → Option githubWebHook) (req : HookRequest) :
    HookResponse × Option buildReq :=
  if req.Method ≠ "POST".toList then (.notFound, none)
  else
    let ok := whitelistLoop req.forwardedFor whitelist
    if !ok then (.notFound, none)
    else
      match decode req.payload with
      | none => (.internalServerError, none)
      | some wh =>
        if wh.Ref.length = 0 ∨ wh.Repo.URL.length = 0 then (.empty, none)
        else (.empty, some (submitBuildRequest wh.Repo.URL wh.Ref wh.After))

/-! ## Vocabulary of the statements -/

/-- Every branch pointer's target is the path of a build output, and every
build output's path is the target of a branch pointer. -/
def Consistent (cfg : Config) (st : State) : Prop :=
  (∀ e ∈ st.branches, e.2 ∈ outputPaths cfg st) ∧ (∀ p ∈ outputPaths cfg st, p ∈ linkTargets st)

instance (cfg : Config) (st : State) : Decidable (Consistent cfg st) := by
  unfold Consistent
  infer_instance

/-- The entry names of `buildOutputDir` are names of directory entries, each
listed once. -/
def OutputsWf (st : State) : Prop :=
  st.outputs.Nodup ∧ ∀ n ∈ st.outputs, validName n = true

instance (st : State) : Decidable (OutputsWf st) := by
  unfold OutputsWf
  infer_instance

/-! ## Sample inputs -/

/-- The directories of a daemon whose `${HOME}` is `/home/docs`. -/
def sampleConfig : Config := mainConfig "/home/docs".toList

/-- A collection pass in which no call fails. -/
def gcOk : GcEnv :=
  { openBranchesErr := false, readBranchesErr := false, readlinkErr := fun _ => false
    openOutputsErr := false, readOutputsErr := false, removeErr := fun _ => false }

/-- A collection pass that cannot open `branchesDir`. -/
def gcNoBranches : GcEnv := { gcOk with openBranchesErr := true }

/-- A collection pass that cannot list `buildOutputDir`. -/
def gcNoOutputs : GcEnv := { gcOk with readOutputsErr := true }

/-- A collection pass in which removing the build of `dev` fails. -/
def gcDevStuck : GcEnv :=
  { gcOk with
    removeErr := fun p =>
      decide (p = buildOutputPath sampleConfig.buildOutputDir "dev".toList "222".toList) }

/-- A builder run in which no call fails. -/
def buildOk : BuildEnv :=
  { cloneErr := false, fetchErr := false, mergeErr := false
    tempDir := some "/tmp/sphinxsrv042".toList, tempCloneErr := false, makeErr := false
    renameErr := none, symlinkErr := false, removeTempErr := false }

/-- A request for the branch `master` at the given commit. -/
def masterReq (commit : Str) : buildReq :=
  submitBuildRequest "git://example.org/docs.git".toList "refs/heads/master".toList commit

/-- No mirror, no build outputs, no branch pointers. -/
def blankState : State := { repo := none, branches := [], outputs := [], temps := [] }

/-- The branch `master` published at commit `abc123`. -/
def masterState : State :=
  { repo := some newDirInfo
    branches :=
      [("master".toList,
        buildOutputPath sampleConfig.buildOutputDir "master".toList "abc123".toList)]
    outputs := ["master-abc123".toList]
    temps := [] }

/-- The state `masterState` with three unreferenced build outputs. -/
def staleState : State :=
  { masterState with
    outputs := ["dev-111".toList, "master-abc123".toList, "dev-222".toList, "dev-333".toList] }

/-- A builder run in which `make html` fails and the temporary directory
cannot be removed. -/
def buildMakeFailsStuck : BuildEnv := { buildOk with makeErr := true, removeTempErr := true }

/-- A request for the branch `dev` at the given commit. -/
def devReq (commit : Str) : buildReq :=
  submitBuildRequest "git://example.org/docs.git".toList "refs/heads/dev".toList commit

/-- A builder run in which `make html` fails. -/
def buildMakeFails : BuildEnv := { buildOk with makeErr := true }

/-- A builder run in which `git fetch` fails. -/
def buildFetchFails : BuildEnv := { buildOk with fetchErr := true }

/-- A branch pointer whose target is not in `buildOutputDir`. -/
def danglingState : State := { masterState with outputs := [] }

/-- A decoder that accepts every payload as a push to `master`. -/
def samplePayload : Str → Option githubWebHook :=
  fun _ =>
    some
      { Ref := "refs/heads/master".toList, After := "abc123".toList
        Repo := { URL := "git://example.org/docs.git".toList } }

/-! ## Splitting and joining -/

theorem stringsSplit_ne_nil (s : Str) (sep : Char) : stringsSplit s sep ≠ [] := by
  induction s with
  | nil => simp [stringsSplit]
  | cons c cs ih =>
    unfold stringsSplit
    split
    · simp
    · split <;> simp

theorem stringsSplit_of_not_mem (s : Str) (sep : Char) (h : sep ∉ s) :
    stringsSplit s sep = [s] := by
  induction s with
  | nil => simp [stringsSplit]
  | cons c cs ih =>
    have hc : c ≠ sep := fun e => h (by simp [e])
    have hcs : sep ∉ cs := fun e => h (by simp [e])
    unfold stringsSplit
    simp [hc, ih hcs]

theorem stringsSplit_append_sep (a b : Str) (sep : Char) :
    stringsSplit (a ++ sep :: b) sep = stringsSplit a sep ++ stringsSplit b sep := by
  induction a with
  | nil => simp [stringsSplit]
  | cons c cs ih =>
    by_cases hc : c = sep
    · simp [stringsSplit, hc, ← ih]
    · have h1 : stringsSplit (c :: cs ++ sep :: b) sep
          = match stringsSplit (cs ++ sep :: b) sep with
            | [] => [[c]]
            | seg :: segs => (c :: seg) :: segs := by
        simp [stringsSplit, hc]
      have h2 : stringsSplit (c :: cs) sep
          = match stringsSplit cs sep with
            | [] => [[c]]
            | seg :: segs => (c :: seg) :: segs := by
        simp [stringsSplit, hc]
      rw [h1, h2, ih]
      cases hs : stringsSplit cs sep with
      | nil => exact absurd hs (stringsSplit_ne_nil cs sep)
      | cons seg segs => simp

/-- Every string either lacks the separator or splits at its last
occurrence. -/
theorem last_sep_cases (s : Str) (sep : Char) :
    sep ∉ s ∨ ∃ pre b, s = pre ++ sep :: b ∧ sep ∉ b := by
  induction s with
  | nil => left; simp
  | cons c cs ih =>
    rcases ih with h | ⟨pre, b, hs, hb⟩
    · by_cases hc : c = sep
      · right; exact ⟨[], cs, by simp [hc], h⟩
      · left
        intro hm
        rcases List.mem_cons.1 hm with e | e
        · exact hc e.symm
        · exact h e
    · right; exact ⟨c :: pre, b, by simp [hs], hb⟩

theorem getLast?_split_append (pre b : Str) (sep : Char) (h : sep ∉ b) :
    (stringsSplit (pre ++ sep :: b) sep).getLast? = some b := by
  simp [stringsSplit_append_sep, stringsSplit_of_not_mem b sep h]

theorem branchNameOf_eq_getLast (ref : Str) :
    branchNameOf ref = some ((stringsSplit ref '/').getLast (stringsSplit_ne_nil ref '/')) := by
  unfold branchNameOf
  simp only []
  rw [← List.getLast?_eq_getElem?, List.getLast?_eq_getLast]

theorem branchNameOf_of_not_mem (s : Str) (h : '/' ∉ s) : branchNameOf s = some s := by
  rw [branchNameOf_eq_getLast]
  simp [stringsSplit_of_not_mem s '/' h]

theorem branchNameOf_append (pre b : Str) (h : '/' ∉ b) :
    branchNameOf (pre ++ '/' :: b) = some b := by
  rw [branchNameOf_eq_getLast]
  simp [stringsSplit_append_sep, stringsSplit_of_not_mem b '/' h]

/-- The facts about the branch name that other proofs use. -/
theorem branchName_last_segment_aux (ref : Str) :
    stringsSplit ref '/' ≠ []
    ∧ (stringsSplit ref '/').length - 1 < (stringsSplit ref '/').length
    ∧ ∃ b, branchNameOf ref = some b
        ∧ (stringsSplit ref '/').getLast? = some b
        ∧ '/' ∉ b
        ∧ (('/' ∉ ref ∧ b = ref) ∨ ('/' ∈ ref ∧ ∃ pre, ref = pre ++ '/' :: b)) := by
  have hne := stringsSplit_ne_nil ref '/'
  refine ⟨hne, ?_, ?_⟩
  · have : 0 < (stringsSplit ref '/').length := List.length_pos.2 hne
    omega
  · rcases last_sep_cases ref '/' with h | ⟨pre, b, hs, hb⟩
    · refine ⟨ref, branchNameOf_of_not_mem ref h, ?_, h, Or.inl ⟨h, rfl⟩⟩
      simp [stringsSplit_of_not_mem ref '/' h]
    · subst hs
      refine ⟨b, branchNameOf_append pre b hb, ?_, hb, Or.inr ⟨by simp, pre, rfl⟩⟩
      exact getLast?_split_append pre b '/' hb

/-! ## C8: branch-name derivation -/

/-- C8: for every reference the split is non-empty, so the index
`len(splitRef)-1` is in bounds and `branchBuilder` gets a branch name; that
name is the last `/`-separated segment of the reference: it contains no `/`,
it is the whole reference when the reference has no `/`, and otherwise the
reference is a leading part, a `/`, and the name. `refs/heads/foo` gives `foo`. -/
theorem branchName_is_last_segment (ref : Str) :
    stringsSplit ref '/' ≠ []
    ∧ (stringsSplit ref '/').length - 1 < (stringsSplit ref '/').length
    ∧ (∃ b, branchNameOf ref = some b
        ∧ (stringsSplit ref '/').getLast? = some b
        ∧ '/' ∉ b
        ∧ (('/' ∉ ref ∧ b = ref) ∨ ('/' ∈ ref ∧ ∃ pre, ref = pre ++ '/' :: b)))
    ∧ branchNameOf "refs/heads/foo".toList = some "foo".toList := by
  obtain ⟨h1, h2, h3⟩ := branchName_last_segment_aux ref
  exact ⟨h1, h2, h3, by decide⟩

/-! ## Paths of directory entries -/

theorem validName_iff (n : Str) :
    validName n = true ↔ n ≠ [] ∧ n ≠ ['.'] ∧ n ≠ ['.', '.'] ∧ '/' ∉ n := by
  simp [validName]

theorem cleanStep_validName (rooted : Bool) (out : List Str) (n : Str)
    (h : validName n = true) : cleanStep rooted out n = n :: out := by
  obtain ⟨h1, h2, h3, _⟩ := (validName_iff n).1 h
  simp [cleanStep, h1, h2, h3]

theorem stringsJoin_concat (xs : List Str) (n : Str) :
    stringsJoin (xs ++ [n]) = n ∨ ∃ pre, stringsJoin (xs ++ [n]) = pre ++ '/' :: n := by
  induction xs with
  | nil => left; rfl
  | cons x xs ih =>
    right
    cases hx : xs ++ [n] with
    | nil => simp at hx
    | cons y ys =>
      have e : stringsJoin (x :: xs ++ [n]) = x ++ '/' :: stringsJoin (y :: ys) := by
        simp [hx, stringsJoin]
      rw [hx] at ih
      rcases ih with h | ⟨pre, h⟩
      · exact ⟨x, by rw [e, h]⟩
      · exact ⟨x ++ '/' :: pre, by rw [e, h]; simp⟩

/-- The last `/`-separated segment of a cleaned path that ends in the entry
name `n` is `n`. -/
theorem branchNameOf_clean_append (d n : Str) (h : validName n = true) :
    branchNameOf (filepathClean (d ++ '/' :: n)) = some n := by
  have hn : '/' ∉ n := ((validName_iff n).1 h).2.2.2
  cases hp : d ++ '/' :: n with
  | nil => simp at hp
  | cons c rest =>
    unfold filepathClean
    simp only []
    rw [← hp, stringsSplit_append_sep, stringsSplit_of_not_mem n '/' hn, List.foldl_append]
    simp only [List.foldl_cons, List.foldl_nil, cleanStep_validName _ _ n h,
      List.reverse_cons]
    generalize (List.foldl (cleanStep (decide (c = '/'))) [] (stringsSplit d '/')).reverse = xs
    rcases stringsJoin_concat xs n with e | ⟨pre, e⟩
    · rw [e]
      have hne : n ≠ [] := ((validName_iff n).1 h).1
      by_cases hc : c = '/'
      · simp only [hc, decide_True, if_true]
        exact branchNameOf_append [] n hn
      · simp only [hc, decide_False, hne, if_false, Bool.false_eq_true]
        exact branchNameOf_of_not_mem n hn
    · rw [e]
      by_cases hc : c = '/'
      · simp only [hc, decide_True, if_true]
        exact branchNameOf_append ('/' :: pre) n hn
      · have hne : pre ++ '/' :: n ≠ [] := by simp
        simp only [hc, decide_False, hne, if_false, Bool.false_eq_true]
        exact branchNameOf_append pre n hn

theorem filepathClean_validName (n : Str) (h : validName n = true) : filepathClean n = n := by
  obtain ⟨h1, h2, h3, h4⟩ := (validName_iff n).1 h
  cases n with
  | nil => exact absurd rfl h1
  | cons c cs =>
    have hc : c ≠ '/' := fun e => h4 (by simp [e])
    unfold filepathClean
    simp only []
    rw [stringsSplit_of_not_mem _ '/' h4]
    simp [cleanStep_validName _ _ _ h, stringsJoin, hc]

/-- The path of the entry `n` of the directory `d` ends in `n`. -/
theorem branchNameOf_join (d n : Str) (h : validName n = true) :
    branchNameOf (filepathJoin [d, n]) = some n := by
  have hne : n ≠ [] := ((validName_iff n).1 h).1
  have hn : '/' ∉ n := ((validName_iff n).1 h).2.2.2
  by_cases hd : d = []
  · simp only [filepathJoin, hd, hne, if_true, if_false, stringsJoin]
    rw [filepathClean_validName n h]
    exact branchNameOf_of_not_mem n hn
  · simp only [filepathJoin, hd, if_false, stringsJoin]
    exact branchNameOf_clean_append d n h

/-- Distinct entry names of one directory have distinct paths. -/
theorem filepathJoin_injective (d n1 n2 : Str) (h1 : validName n1 = true)
    (h2 : validName n2 = true) (e : filepathJoin [d, n1] = filepathJoin [d, n2]) : n1 = n2 := by
  have a := branchNameOf_join d n1 h1
  rw [e, branchNameOf_join d n2 h2] at a
  exact (Option.some.inj a).symm

theorem validName_buildName (b c : Str) (hb : '/' ∉ b) (hc : '/' ∉ c) :
    validName (b ++ '-' :: c) = true := by
  rw [validName_iff]
  refine ⟨by simp, ?_, ?_, ?_⟩
  · intro e
    have : '-' ∈ (['.'] : Str) := by rw [← e]; simp
    simp at this
  · intro e
    have : '-' ∈ (['.', '.'] : Str) := by rw [← e]; simp
    simp at this
  · intro hm
    rcases List.mem_append.1 hm with m | m
    · exact hb m
    · rcases List.mem_cons.1 m with m | m
      · exact absurd m (by decide)
      · exact hc m

theorem buildName_injective (b1 c1 b2 c2 : Str) (h1 : '-' ∉ c1) (h2 : '-' ∉ c2)
    (e : b1 ++ '-' :: c1 = b2 ++ '-' :: c2) : b1 = b2 ∧ c1 = c2 := by
  have a := getLast?_split_append b1 c1 '-' h1
  rw [e, getLast?_split_append b2 c2 '-' h2] at a
  have hc : c1 = c2 := (Option.some.inj a).symm
  subst hc
  exact ⟨List.append_cancel_right e, rfl⟩

/-! ## C9: the permanent path of a build -/

/-- C9, as the claim states it, fails: two different (branch, commit) pairs
get the same permanent path when the branch name contains a `-`, and when a
commit ends in a path element that cleaning removes. -/
theorem buildOutputPath_not_injective :
    (buildOutputPath "/srv/buildoutput".toList "a-b".toList "c".toList
        = buildOutputPath "/srv/buildoutput".toList "a".toList "b-c".toList
      ∧ ¬ ("a-b".toList = "a".toList ∧ "c".toList = "b-c".toList))
    ∧ (buildOutputPath "/srv/buildoutput".toList "a".toList "b/.".toList
        = buildOutputPath "/srv/buildoutput".toList "a".toList "b".toList
      ∧ ¬ ("a".toList = "a".toList ∧ "b/.".toList = "b".toList)) := by
  decide

/-- C9, amended: for branch names without `/` and commits without `/` and
without `-`, the permanent paths of two builds are equal if and only if the
branch names are equal and the commits are equal. -/
theorem buildOutputPath_eq_iff (dir b1 c1 b2 c2 : Str)
    (hb1 : '/' ∉ b1) (hb2 : '/' ∉ b2) (hc1 : '/' ∉ c1) (hc2 : '/' ∉ c2)
    (hd1 : '-' ∉ c1) (hd2 : '-' ∉ c2) :
    buildOutputPath dir b1 c1 = buildOutputPath dir b2 c2 ↔ b1 = b2 ∧ c1 = c2 := by
  constructor
  · intro e
    have hn := filepathJoin_injective dir _ _ (validName_buildName b1 c1 hb1 hc1)
      (validName_buildName b2 c2 hb2 hc2) e
    exact buildName_injective b1 c1 b2 c2 hd1 hd2 hn
  · rintro ⟨rfl, rfl⟩
    rfl

/-- C9, amended, at two builds of one branch. -/
theorem buildOutputPath_eq_iff_witness :
    buildOutputPath "/srv/buildoutput".toList "master".toList "abc123".toList
        = buildOutputPath "/srv/buildoutput".toList "master".toList "def456".toList
      ↔ "master".toList = "master".toList ∧ "abc123".toList = "def456".toList :=
  buildOutputPath_eq_iff "/srv/buildoutput".toList "master".toList "abc123".toList
    "master".toList "def456".toList (by decide) (by decide) (by decide) (by decide)
    (by decide) (by decide)

/-! ## The loops of the collector -/

theorem readlinkLoop_eq_some (env : GcEnv) (l : List (Str × Str)) (acc r : List Str)
    (h : readlinkLoop env l acc = some r) : r = acc ++ l.map (fun e => e.2) := by
  induction l generalizing acc with
  | nil => simp [readlinkLoop] at h; simp [h]
  | cons e rest ih =>
    obtain ⟨name, target⟩ := e
    unfold readlinkLoop at h
    split at h
    · exact absurd h (by simp)
    · rw [ih _ h]; simp

theorem readlinkLoop_eq_none_iff (env : GcEnv) (l : List (Str × Str)) (acc : List Str) :
    readlinkLoop env l acc = none ↔ ∃ e ∈ l, env.readlinkErr e.1 = true := by
  induction l generalizing acc with
  | nil => simp [readlinkLoop]
  | cons e rest ih =>
    obtain ⟨name, target⟩ := e
    unfold readlinkLoop
    by_cases h : env.readlinkErr name = true
    · simp [h]
    · simp [h, ih]

theorem activeBuildOutputs_eq_some (env : GcEnv) (st : State) (active : List Str)
    (h : activeBuildOutputs env st = some active) : active = linkTargets st := by
  unfold activeBuildOutputs at h
  split at h
  · exact absurd h (by simp)
  · split at h
    · exact absurd h (by simp)
    · simpa [linkTargets] using readlinkLoop_eq_some env _ _ _ h

theorem activeBuildOutputs_eq_none_iff (env : GcEnv) (st : State) :
    activeBuildOutputs env st = none ↔
      env.openBranchesErr = true ∨ env.readBranchesErr = true
        ∨ ∃ e ∈ st.branches, env.readlinkErr e.1 = true := by
  unfold activeBuildOutputs
  by_cases h1 : env.openBranchesErr = true
  · simp [h1]
  · by_cases h2 : env.readBranchesErr = true
    · simp [h2]
    · simp [h1, h2, readlinkLoop_eq_none_iff]

theorem joinLoop_eq (cfg : Config) (l acc : List Str) :
    joinLoop cfg l acc = acc ++ l.map (fun n => filepathJoin [cfg.buildOutputDir, n]) := by
  induction l generalizing acc with
  | nil => simp [joinLoop]
  | cons n rest ih => simp [joinLoop, ih]

theorem allBuildOutputs_eq_some (cfg : Config) (env : GcEnv) (st : State) (all : List Str)
    (h : allBuildOutputs cfg env st = some all) : all = outputPaths cfg st := by
  unfold allBuildOutputs at h
  split at h
  · exact absurd h (by simp)
  · split at h
    · exact absurd h (by simp)
    · simpa [outputPaths, joinLoop_eq] using h.symm

theorem allBuildOutputs_eq_none_iff (cfg : Config) (env : GcEnv) (st : State) :
    allBuildOutputs cfg env st = none ↔
      env.openOutputsErr = true ∨ env.readOutputsErr = true := by
  unfold allBuildOutputs
  by_cases h1 : env.openOutputsErr = true
  · simp [h1]
  · by_cases h2 : env.readOutputsErr = true
    · simp [h2]
    · simp [h1, h2]

theorem isActiveLoop_eq (p : Str) (active : List Str) :
    isActiveLoop p active = decide (p ∈ active) := by
  induction active with
  | nil => simp [isActiveLoop]
  | cons a rest ih =>
    by_cases h : a = p
    · simp [isActiveLoop, h]
    · have h2 : ¬ p = a := fun e => h e.symm
      simp [isActiveLoop, h, h2, ih]

theorem candidateLoop_eq (active all acc : List Str) :
    candidateLoop active all acc = acc ++ all.filter (fun p => decide (p ∉ active)) := by
  induction all generalizing acc with
  | nil => simp [candidateLoop]
  | cons p rest ih =>
    by_cases h : p ∈ active
    · simp [candidateLoop, isActiveLoop_eq, h, ih]
    · simp [candidateLoop, isActiveLoop_eq, h, ih]

theorem removeLoop_branches (cfg : Config) (env : GcEnv) (l : List Str) (st : State) :
    (removeLoop cfg env l st).2.branches = st.branches := by
  induction l generalizing st with
  | nil => rfl
  | cons p rest ih =>
    unfold removeLoop
    split
    · rfl
    · rw [ih]; rfl

/-- The removal loop stops at the first path whose removal fails, with the
paths before it removed. -/
theorem removeLoop_stops (cfg : Config) (env : GcEnv) (pre : List Str) (p : Str)
    (post : List Str) (st : State) (hpre : ∀ q ∈ pre, env.removeErr q = false)
    (hp : env.removeErr p = true) :
    removeLoop cfg env (pre ++ p :: post) st
      = (.removeFailed,
          { st with
            outputs :=
              st.outputs.filter (fun n => decide (filepathJoin [cfg.buildOutputDir, n] ∉ pre)) }) := by
  induction pre generalizing st with
  | nil => simp [removeLoop, hp]
  | cons q rest ih =>
    have hq : env.removeErr q = false := hpre q (by simp)
    have hrest : ∀ r ∈ rest, env.removeErr r = false := fun r hr => hpre r (by simp [hr])
    rw [List.cons_append]
    unfold removeLoop
    simp only [hq, Bool.false_eq_true, if_false]
    rw [ih _ hrest]
    simp only [osRemoveAll, List.filter_filter, List.mem_cons, not_or]
    congr 2
    apply List.filter_congr
    intro n _
    by_cases a : filepathJoin [cfg.buildOutputDir, n] = q <;>
      by_cases b : filepathJoin [cfg.buildOutputDir, n] ∈ rest <;> simp [a, b]

/-- The removal loop runs to its end exactly when no removal fails, and then
the paths of the list are removed. -/
theorem removeLoop_cleaned (cfg : Config) (env : GcEnv) (l : List Str) (st : State)
    (h : ∀ q ∈ l, env.removeErr q = false) :
    removeLoop cfg env l st
      = (.cleaned,
          { st with
            outputs :=
              st.outputs.filter (fun n => decide (filepathJoin [cfg.buildOutputDir, n] ∉ l)) }) := by
  induction l generalizing st with
  | nil => simp [removeLoop]
  | cons q rest ih =>
    have hq : env.removeErr q = false := h q (by simp)
    have hrest : ∀ r ∈ rest, env.removeErr r = false := fun r hr => h r (by simp [hr])
    simp only [removeLoop, hq, Bool.false_eq_true, if_false]
    rw [ih _ hrest]
    simp only [osRemoveAll, List.filter_filter, List.mem_cons, not_or]
    congr 2
    apply List.filter_congr
    intro n _
    by_cases a : filepathJoin [cfg.buildOutputDir, n] = q <;>
      by_cases b : filepathJoin [cfg.buildOutputDir, n] ∈ rest <;> simp [a, b]

/-- Every list of paths splits at the first one whose removal fails. -/
theorem first_failure_cases (env : GcEnv) (l : List Str) :
    (∀ q ∈ l, env.removeErr q = false)
      ∨ ∃ pre p post, l = pre ++ p :: post ∧ (∀ q ∈ pre, env.removeErr q = false)
          ∧ env.removeErr p = true := by
  induction l with
  | nil => left; simp
  | cons q rest ih =>
    by_cases hq : env.removeErr q = true
    · right; exact ⟨[], q, rest, rfl, by simp, hq⟩
    · have hq2 : env.removeErr q = false := by simpa using hq
      rcases ih with h | ⟨pre, p, post, e, hpre, hp⟩
      · left
        intro r hr
        rcases List.mem_cons.1 hr with rfl | hr
        · exact hq2
        · exact h r hr
      · right
        refine ⟨q :: pre, p, post, by simp [e], ?_, hp⟩
        intro r hr
        rcases List.mem_cons.1 hr with rfl | hr
        · exact hq2
        · exact hpre r hr

/-- No removal loop removes an entry whose path is not in its list. -/
theorem removeLoop_keeps (cfg : Config) (env : GcEnv) (l : List Str) (st : State) (n : Str)
    (hn : n ∈ st.outputs) (hl : filepathJoin [cfg.buildOutputDir, n] ∉ l) :
    n ∈ (removeLoop cfg env l st).2.outputs := by
  rcases first_failure_cases env l with h | ⟨pre, p, post, e, hpre, hp⟩
  · rw [removeLoop_cleaned cfg env l st h]
    simp [hn, hl]
  · subst e
    rw [removeLoop_stops cfg env pre p post st hpre hp]
    have : filepathJoin [cfg.buildOutputDir, n] ∉ pre := fun m => hl (by simp [m])
    simp [hn, this]

theorem removeLoop_cleaned_inv (cfg : Config) (env : GcEnv) (l : List Str) (st : State)
    (h : (removeLoop cfg env l st).1 = .cleaned) : ∀ q ∈ l, env.removeErr q = false := by
  rcases first_failure_cases env l with h' | ⟨pre, p, post, e, hpre, hp⟩
  · exact h'
  · subst e
    rw [removeLoop_stops cfg env pre p post st hpre hp] at h
    exact absurd h (by simp)

theorem cleanup_of_stale (cfg : Config) (env : GcEnv) (st : State) (l : List Str)
    (h : staleBuildOutputs cfg env st = some l) :
    cleanupStaleBuildOutputs cfg env st = removeLoop cfg env l st
      ∧ l = (outputPaths cfg st).filter (fun p => decide (p ∉ linkTargets st)) := by
  unfold staleBuildOutputs at h
  unfold cleanupStaleBuildOutputs
  cases ha : activeBuildOutputs env st with
  | none => simp [ha] at h
  | some active =>
    cases hb : allBuildOutputs cfg env st with
    | none => simp [ha, hb] at h
    | some all =>
      simp only [ha, hb, Option.some.injEq] at h
      have e1 := activeBuildOutputs_eq_some env st active ha
      have e2 := allBuildOutputs_eq_some cfg env st all hb
      subst e1 e2
      refine ⟨by simp [h], ?_⟩
      rw [← h, candidateLoop_eq]
      simp

theorem cleanup_branches (cfg : Config) (env : GcEnv) (st : State) :
    (cleanupStaleBuildOutputs cfg env st).2.branches = st.branches := by
  unfold cleanupStaleBuildOutputs
  split
  · rfl
  · split
    · rfl
    · exact removeLoop_branches cfg env _ st

/-- No collection pass removes an entry whose path is a link target. -/
theorem cleanup_keeps_referenced (cfg : Config) (env : GcEnv) (st : State) (n : Str)
    (hn : n ∈ st.outputs) (ht : filepathJoin [cfg.buildOutputDir, n] ∈ linkTargets st) :
    n ∈ (cleanupStaleBuildOutputs cfg env st).2.outputs := by
  cases hs : staleBuildOutputs cfg env st with
  | none =>
    unfold staleBuildOutputs at hs
    unfold cleanupStaleBuildOutputs
    cases ha : activeBuildOutputs env st with
    | none => simpa using hn
    | some active =>
      cases hb : allBuildOutputs cfg env st with
      | none => simpa using hn
      | some all => simp [ha, hb] at hs
  | some l =>
    obtain ⟨e, hl⟩ := cleanup_of_stale cfg env st l hs
    rw [e]
    apply removeLoop_keeps cfg env l st n hn
    rw [hl]
    simp [ht]

/-- A collection pass that runs to its end leaves exactly the entries whose
path is a link target. -/
theorem cleanup_cleaned (cfg : Config) (env : GcEnv) (st : State)
    (h : (cleanupStaleBuildOutputs cfg env st).1 = .cleaned) :
    (cleanupStaleBuildOutputs cfg env st).2.outputs
      = st.outputs.filter (fun n => decide (filepathJoin [cfg.buildOutputDir, n] ∈ linkTargets st)) := by
  cases hs : staleBuildOutputs cfg env st with
  | none =>
    unfold staleBuildOutputs at hs
    unfold cleanupStaleBuildOutputs at h
    cases ha : activeBuildOutputs env st with
    | none => simp [ha] at h
    | some active =>
      cases hb : allBuildOutputs cfg env st with
      | none => simp [ha, hb] at h
      | some all => simp [ha, hb] at hs
  | some l =>
    obtain ⟨e, hl⟩ := cleanup_of_stale cfg env st l hs
    rw [e] at h ⊢
    rw [removeLoop_cleaned cfg env l st (removeLoop_cleaned_inv cfg env l st h)]
    simp only []
    apply List.filter_congr
    intro n hn
    have hm : filepathJoin [cfg.buildOutputDir, n] ∈ outputPaths cfg st :=
      List.mem_map.2 ⟨n, hn, rfl⟩
    rw [hl]
    by_cases a : filepathJoin [cfg.buildOutputDir, n] ∈ linkTargets st <;> simp [a, hm]

theorem outputPaths_nodup (cfg : Config) (st : State) (h : OutputsWf st) :
    (outputPaths cfg st).Nodup := by
  unfold outputPaths
  apply List.Nodup.map_on _ h.1
  intro x hx y hy e
  exact filepathJoin_injective cfg.buildOutputDir x y (h.2 x hx) (h.2 y hy) e

/-! ## C3: what the collector deletes -/

/-- C3: when both enumerations succeed, they give the link targets of the
branch pointers and the paths of the build outputs; the deletion list is the
list of those paths, in enumeration order, that equal no link target; no
entry whose path is a link target is removed, whatever the removals do; and
when every removal of the list succeeds, the entries left are exactly the
former entries whose path is a link target. -/
theorem cleanup_deletes_exactly_unreferenced (cfg : Config) (env : GcEnv) (st : State)
    (active all : List Str) (ha : activeBuildOutputs env st = some active)
    (hall : allBuildOutputs cfg env st = some all) :
    active = linkTargets st ∧ all = outputPaths cfg st
    ∧ staleBuildOutputs cfg env st = some (all.filter (fun p => decide (p ∉ active)))
    ∧ cleanupStaleBuildOutputs cfg env st
        = removeLoop cfg env (all.filter (fun p => decide (p ∉ active))) st
    ∧ (∀ n ∈ st.outputs, filepathJoin [cfg.buildOutputDir, n] ∈ active →
        n ∈ (cleanupStaleBuildOutputs cfg env st).2.outputs)
    ∧ ((∀ p ∈ all.filter (fun p => decide (p ∉ active)), env.removeErr p = false) →
        (cleanupStaleBuildOutputs cfg env st).1 = .cleaned
        ∧ (cleanupStaleBuildOutputs cfg env st).2.branches = st.branches
        ∧ (cleanupStaleBuildOutputs cfg env st).2.outputs
          = st.outputs.filter (fun n => decide (filepathJoin [cfg.buildOutputDir, n] ∈ active))) := by
  have e1 := activeBuildOutputs_eq_some env st active ha
  have e2 := allBuildOutputs_eq_some cfg env st all hall
  have hs : staleBuildOutputs cfg env st = some (all.filter (fun p => decide (p ∉ active))) := by
    simp [staleBuildOutputs, ha, hall, candidateLoop_eq]
  have hc := (cleanup_of_stale cfg env st _ hs).1
  refine ⟨e1, e2, hs, hc, ?_, ?_⟩
  · intro n hn ht
    exact cleanup_keeps_referenced cfg env st n hn (e1 ▸ ht)
  · intro hrm
    have h1 : (cleanupStaleBuildOutputs cfg env st).1 = .cleaned := by
      rw [hc, removeLoop_cleaned cfg env _ st hrm]
    refine ⟨h1, cleanup_branches cfg env st, ?_⟩
    rw [cleanup_cleaned cfg env st h1, e1]

/-- C3 at a state with one referenced and three unreferenced build outputs. -/
theorem cleanup_deletes_exactly_unreferenced_witness :
    activeBuildOutputs gcOk staleState = some (linkTargets staleState)
    ∧ allBuildOutputs sampleConfig gcOk staleState = some (outputPaths sampleConfig staleState)
    ∧ (cleanupStaleBuildOutputs sampleConfig gcOk staleState).2.outputs
        = ["master-abc123".toList] := by
  have ha : activeBuildOutputs gcOk staleState = some (linkTargets staleState) := by decide
  have hall : allBuildOutputs sampleConfig gcOk staleState
      = some (outputPaths sampleConfig staleState) := by decide
  have h := cleanup_deletes_exactly_unreferenced sampleConfig gcOk staleState _ _ ha hall
  refine ⟨ha, hall, ?_⟩
  rw [(h.2.2.2.2.2 (fun _ _ => rfl)).2.2]
  decide

/-! ## C7: errors during collection -/

/-- C7: the collector is a total function, so it always returns to the
worker loop. If enumerating the branch pointers fails (opening or listing the
directory, or reading the link of any entry), or if enumerating the build
outputs fails, the state is returned unchanged. If the removal of an entry of
the deletion list fails after the removals before it succeeded, the pass ends
there: the entries before it are gone, and the entries after it, and every
branch pointer, are in place. -/
theorem cleanup_error_handling (cfg : Config) (env : GcEnv) (st : State) :
    ((env.openBranchesErr = true ∨ env.readBranchesErr = true
        ∨ ∃ e ∈ st.branches, env.readlinkErr e.1 = true) →
      cleanupStaleBuildOutputs cfg env st = (.activeFailed, st))
    ∧ ((env.openOutputsErr = true ∨ env.readOutputsErr = true) →
      (cleanupStaleBuildOutputs cfg env st).1 ≠ .cleaned
      ∧ (cleanupStaleBuildOutputs cfg env st).1 ≠ .removeFailed
      ∧ (cleanupStaleBuildOutputs cfg env st).2 = st)
    ∧ (∀ pre p post, staleBuildOutputs cfg env st = some (pre ++ p :: post) →
        (∀ q ∈ pre, env.removeErr q = false) → env.removeErr p = true → OutputsWf st →
        (cleanupStaleBuildOutputs cfg env st).1 = .removeFailed
        ∧ (cleanupStaleBuildOutputs cfg env st).2.branches = st.branches
        ∧ (∀ n ∈ st.outputs, filepathJoin [cfg.buildOutputDir, n] ∈ pre →
            n ∉ (cleanupStaleBuildOutputs cfg env st).2.outputs)
        ∧ (∀ n ∈ st.outputs, filepathJoin [cfg.buildOutputDir, n] ∈ p :: post →
            n ∈ (cleanupStaleBuildOutputs cfg env st).2.outputs)) := by
  refine ⟨?_, ?_, ?_⟩
  · intro h
    have ha := (activeBuildOutputs_eq_none_iff env st).2 h
    simp [cleanupStaleBuildOutputs, ha]
  · intro h
    have hb := (allBuildOutputs_eq_none_iff cfg env st).2 h
    unfold cleanupStaleBuildOutputs
    cases ha : activeBuildOutputs env st with
    | none => simp
    | some active => simp [hb]
  · intro pre p post hs hpre hp hwf
    obtain ⟨e, hl⟩ := cleanup_of_stale cfg env st _ hs
    rw [e, removeLoop_stops cfg env pre p post st hpre hp]
    refine ⟨rfl, rfl, ?_, ?_⟩
    · intro n _ hm
      simp [hm]
    · intro n hn hm
      have hnd : (pre ++ p :: post).Nodup := by
        rw [hl]
        exact (outputPaths_nodup cfg st hwf).filter _
      have hdis := (List.nodup_append.1 hnd).2.2
      have : filepathJoin [cfg.buildOutputDir, n] ∉ pre := fun m => hdis m hm
      simp [hn, this]

/-- C7 at a pass that cannot open `branchesDir`, at a pass that cannot list
`buildOutputDir`, and at a pass in which the second of three removals fails. -/
theorem cleanup_error_handling_witness :
    (gcNoBranches.openBranchesErr = true
      ∧ cleanupStaleBuildOutputs sampleConfig gcNoBranches staleState = (.activeFailed, staleState))
    ∧ (gcNoOutputs.readOutputsErr = true
      ∧ (cleanupStaleBuildOutputs sampleConfig gcNoOutputs staleState).2 = staleState)
    ∧ (OutputsWf staleState
      ∧ (cleanupStaleBuildOutputs sampleConfig gcDevStuck staleState).1 = .removeFailed
      ∧ "dev-111".toList ∉ (cleanupStaleBuildOutputs sampleConfig gcDevStuck staleState).2.outputs
      ∧ "dev-333".toList ∈ (cleanupStaleBuildOutputs sampleConfig gcDevStuck staleState).2.outputs) := by
  have h := cleanup_error_handling sampleConfig gcNoBranches staleState
  have h2 := (cleanup_error_handling sampleConfig gcDevStuck staleState).2.2
    [buildOutputPath sampleConfig.buildOutputDir "dev".toList "111".toList]
    (buildOutputPath sampleConfig.buildOutputDir "dev".toList "222".toList)
    [buildOutputPath sampleConfig.buildOutputDir "dev".toList "333".toList]
    (by decide) (by decide) (by decide) (by decide)
  have h3 := (cleanup_error_handling sampleConfig gcNoOutputs staleState).2.1 (Or.inr rfl)
  refine ⟨⟨rfl, h.1 (Or.inl rfl)⟩, ⟨rfl, h3.2.2⟩, by decide, h2.1, ?_, ?_⟩
  · exact h2.2.2.1 "dev-111".toList (by decide) (by decide)
  · exact h2.2.2.2 "dev-333".toList (by decide) (by decide)

/-! ## The effect of the builder -/

theorem getLast?_split_join (d n : Str) (h : validName n = true) :
    (stringsSplit (filepathJoin [d, n]) '/').getLast? = some n := by
  have e := branchNameOf_join d n h
  rw [branchNameOf_eq_getLast] at e
  rw [List.getLast?_eq_getLast _ (stringsSplit_ne_nil _ _)]
  exact e

theorem entryName_eq_some (cfg : Config) (path n : Str) (h : entryName cfg path = some n) :
    validName n = true ∧ filepathJoin [cfg.buildOutputDir, n] = path := by
  unfold entryName at h
  split at h
  · exact absurd h (by simp)
  · split at h
    · rename_i hc
      cases h
      exact hc
    · exact absurd h (by simp)

theorem entryName_join (cfg : Config) (n : Str) (h : validName n = true) :
    entryName cfg (filepathJoin [cfg.buildOutputDir, n]) = some n := by
  unfold entryName
  rw [getLast?_split_join _ n h]
  simp [h]

/-- The permanent path of a build whose commit has no `/` names the entry
`<branchName>-<commit>`. -/
theorem entryName_buildOutputPath (cfg : Config) (b c : Str) (hb : '/' ∉ b) (hc : '/' ∉ c) :
    entryName cfg (buildOutputPath cfg.buildOutputDir b c) = some (b ++ '-' :: c) :=
  entryName_join cfg _ (validName_buildName b c hb hc)

theorem osRename_ok (envErr : Option OsError) (cfg : Config) (path : Str) (st st1 : State)
    (h : osRename envErr cfg path st = .ok st1) :
    st1.branches = st.branches
      ∧ ((entryName cfg path = none ∧ st1.outputs = st.outputs)
        ∨ ∃ n, entryName cfg path = some n ∧ st1.outputs = st.outputs ++ [n]) := by
  unfold osRename at h
  split at h
  · exact absurd h (by simp)
  · split at h
    · exact absurd h (by simp)
    · split at h
      · exact absurd h (by simp)
      · split at h
        · rename_i n hn
          cases h
          exact ⟨rfl, Or.inr ⟨n, hn, rfl⟩⟩
        · rename_i hn
          cases h
          exact ⟨rfl, Or.inl ⟨hn, rfl⟩⟩

theorem osSymlink_eq_some (envErr : Bool) (target b : Str) (st st' : State)
    (h : osSymlink envErr target b st = some st') :
    st' = { st with branches := st.branches ++ [(b, target)] }
      ∧ validName b = true ∧ (∀ e ∈ st.branches, e.1 ≠ b) ∧ envErr = false := by
  unfold osSymlink at h
  split at h
  · exact absurd h (by simp)
  · rename_i hc
    simp only [Bool.or_eq_true, Bool.not_eq_true', List.any_eq_true, decide_eq_true_eq,
      not_or, not_exists, not_and, Bool.not_eq_false, Bool.not_eq_true] at hc
    refine ⟨(Option.some.inj h).symm, hc.1.1, fun e he => hc.1.2 e he, hc.2⟩

theorem removeTemp_branches (removeErr : Bool) (d : Str) (st : State) :
    (removeTemp removeErr d st).branches = st.branches := by
  unfold removeTemp
  split <;> rfl

theorem removeTemp_outputs (removeErr : Bool) (d : Str) (st : State) :
    (removeTemp removeErr d st).outputs = st.outputs := by
  unfold removeTemp
  split <;> rfl

/-- The ways the part of the builder after the temporary directory leaves the
state: untouched, after the rename, or after the rename and the symlink. -/
theorem buildInTemp_effect (cfg : Config) (env : BuildEnv) (req : buildReq) (b d : Str)
    (st : State) (cmds : List Cmd) :
    ((buildInTemp cfg env req b d st cmds).state = st
        ∧ (buildInTemp cfg env req b d st cmds).outcome ≠ .symlinkFailed
        ∧ (buildInTemp cfg env req b d st cmds).outcome ≠ .deployed)
    ∨ ∃ st1, osRename env.renameErr cfg (buildOutputPath cfg.buildOutputDir b req.Commit) st
          = .ok st1
        ∧ (((buildInTemp cfg env req b d st cmds).state = st1
            ∧ (buildInTemp cfg env req b d st cmds).outcome = .symlinkFailed)
          ∨ ((buildInTemp cfg env req b d st cmds).outcome = .deployed
            ∧ osSymlink env.symlinkErr (buildOutputPath cfg.buildOutputDir b req.Commit) b st1
                = some (buildInTemp cfg env req b d st cmds).state)) := by
  unfold buildInTemp
  simp only []
  split
  · left; simp
  · split
    · left; simp
    · split
      · split <;> (left; simp)
      · rename_i st1 hr
        right
        refine ⟨st1, hr, ?_⟩
        split
        · left; simp
        · rename_i hs
          right
          exact ⟨rfl, hs⟩

/-- What the builder does to pointers and build outputs: the pointers are as
they were unless the run deploys, which adds the pointer of the branch to the
permanent path; the build outputs are as they were or have the entry that
the permanent path names added, and a run that deploys a permanent path
naming an entry has added it. -/
theorem branchBuilder_effect (cfg : Config) (env : BuildEnv) (req : buildReq) (st : State)
    (run : BuildRun) (h : branchBuilder cfg env req st = some run) :
    ∃ b, branchNameOf req.Ref = some b
      ∧ ((run.state.branches = st.branches ∧ run.outcome ≠ .deployed)
        ∨ (run.outcome = .deployed
          ∧ run.state.branches
            = st.branches ++ [(b, buildOutputPath cfg.buildOutputDir b req.Commit)]))
      ∧ ((run.state.outputs = st.outputs
          ∧ (run.outcome = .deployed →
              entryName cfg (buildOutputPath cfg.buildOutputDir b req.Commit) = none))
        ∨ ∃ n, entryName cfg (buildOutputPath cfg.buildOutputDir b req.Commit) = some n
            ∧ run.state.outputs = st.outputs ++ [n]) := by
  unfold branchBuilder at h
  cases hb : branchNameOf req.Ref with
  | none => simp [hb] at h
  | some b =>
    refine ⟨b, rfl, ?_⟩
    simp only [hb] at h
    split at h
    · cases h; exact ⟨Or.inl ⟨rfl, by simp⟩, Or.inl ⟨rfl, by simp⟩⟩
    · split at h
      · cases h
        refine ⟨Or.inl ⟨?_, by simp⟩, Or.inl ⟨?_, by simp⟩⟩ <;> (simp only []; split <;> rfl)
      · split at h
        · cases h
          refine ⟨Or.inl ⟨?_, by simp⟩, Or.inl ⟨?_, by simp⟩⟩ <;> (simp only []; split <;> rfl)
        · split at h
          · cases h
            refine ⟨Or.inl ⟨?_, by simp⟩, Or.inl ⟨?_, by simp⟩⟩ <;>
              (simp only []; split <;> rfl)
          · rename_i d _
            cases h
            simp only [removeTemp_branches, removeTemp_outputs]
            generalize hst0 : ({ (if (!dirExists st.repo) = true then
                { st with repo := some newDirInfo } else st) with
              temps := d :: (if (!dirExists st.repo) = true then
                { st with repo := some newDirInfo } else st).temps } : State) = st0
            have hb0 : st0.branches = st.branches := by
              rw [← hst0]; simp only []; split <;> rfl
            have ho0 : st0.outputs = st.outputs := by
              rw [← hst0]; simp only []; split <;> rfl
            generalize ((if (!dirExists st.repo) = true then [gitClone cfg req] else [])
              ++ [gitFetch cfg req] ++ [gitMerge cfg]) = cmds
            rcases buildInTemp_effect cfg env req b d st0 cmds with ⟨e, h1, h2⟩
              | ⟨st1, hr, ⟨e, h1⟩ | ⟨h1, h2⟩⟩
            · rw [e, hb0, ho0]
              exact ⟨Or.inl ⟨rfl, h2⟩, Or.inl ⟨rfl, fun hd => absurd hd h2⟩⟩
            · obtain ⟨hbr, hout⟩ := osRename_ok _ _ _ _ _ hr
              rw [e, hbr, hb0]
              refine ⟨Or.inl ⟨rfl, by rw [h1]; simp⟩, ?_⟩
              rcases hout with ⟨_, ho⟩ | ⟨n, hn, ho⟩
              · exact Or.inl ⟨by rw [ho, ho0], fun hd => by rw [h1] at hd; simp at hd⟩
              · exact Or.inr ⟨n, hn, by rw [ho, ho0]⟩
            · obtain ⟨hbr, hout⟩ := osRename_ok _ _ _ _ _ hr
              obtain ⟨e, _, _, _⟩ := osSymlink_eq_some _ _ _ _ _ h2
              rw [e]
              simp only []
              rw [hbr, hb0]
              refine ⟨Or.inr ⟨h1, rfl⟩, ?_⟩
              rcases hout with ⟨hn, ho⟩ | ⟨n, hn, ho⟩
              · exact Or.inl ⟨by rw [ho, ho0], fun _ => hn⟩
              · exact Or.inr ⟨n, hn, by rw [ho, ho0]⟩

/-- The builder returns on every request. -/
theorem branchBuilder_total (cfg : Config) (env : BuildEnv) (req : buildReq) (st : State) :
    ∃ run, branchBuilder cfg env req st = some run := by
  obtain ⟨_, _, b, hb, _⟩ := branchName_last_segment_aux req.Ref
  unfold branchBuilder
  simp only [hb]
  split
  · exact ⟨_, rfl⟩
  · split
    · exact ⟨_, rfl⟩
    · split
      · exact ⟨_, rfl⟩
      · split <;> exact ⟨_, rfl⟩

/-! ## C6: a failing build -/

/-- C6, as the claim states it, fails: the error of the deferred removal is
discarded, and when the removal fails the temporary directory made for the
request is still there after the builder returns. -/
theorem build_failure_can_leave_temp :
    buildMakeFailsStuck.makeErr = true
    ∧ (branchBuilder sampleConfig buildMakeFailsStuck (masterReq "def456".toList) masterState).map
        (fun r => (r.outcome, r.state.temps))
      = some (.makeFailed, ["/tmp/sphinxsrv042".toList])
    ∧ masterState.temps = [] := by
  refine ⟨by decide, by decide, by decide⟩

/-- C6, amended: when `make html` fails, the builder returns with the entries
of `buildOutputDir` and every branch pointer as they were; and when the run
gets as far as `make html` (the steps before it succeed), it returns at the
failure of `make html`, after running it in the temporary working copy, and
the temporary directory made for the request no longer exists provided the
deferred removal succeeds. -/
theorem build_failure_changes_nothing (cfg : Config) (env : BuildEnv) (req : buildReq)
    (st : State) (hmake : env.makeErr = true) :
    ∃ run, branchBuilder cfg env req st = some run
      ∧ run.state.outputs = st.outputs ∧ run.state.branches = st.branches
      ∧ (∀ d, (dirExists st.repo = false → env.cloneErr = false) → env.fetchErr = false →
          env.mergeErr = false → env.tempDir = some d → env.tempCloneErr = false →
          run.outcome = .makeFailed
          ∧ makeHtml (filepathJoin [d, "repo".toList]) ∈ run.cmds
          ∧ (env.removeTempErr = false → d ∉ run.state.temps)) := by
  obtain ⟨_, _, b, hb, _⟩ := branchName_last_segment_aux req.Ref
  cases hd : dirExists st.repo <;> cases hc : env.cloneErr <;> cases hf : env.fetchErr <;>
    cases hm : env.mergeErr <;> cases ht : env.tempDir <;> cases htc : env.tempCloneErr <;>
    cases hr : env.removeTempErr <;>
    simp [branchBuilder, buildInTemp, removeTemp, hb, hd, hc, hf, hm, ht, htc, hr, hmake]

/-- C6, amended, at a request for `master` whose `make html` fails. -/
theorem build_failure_changes_nothing_witness :
    buildMakeFails.makeErr = true
    ∧ ∃ run, branchBuilder sampleConfig buildMakeFails (masterReq "def456".toList) masterState
          = some run
        ∧ run.state.outputs = masterState.outputs ∧ run.state.branches = masterState.branches
        ∧ run.outcome = .makeFailed ∧ "/tmp/sphinxsrv042".toList ∉ run.state.temps := by
  obtain ⟨run, h1, h2, h3, h4⟩ :=
    build_failure_changes_nothing sampleConfig buildMakeFails (masterReq "def456".toList)
      masterState rfl
  have h5 := h4 "/tmp/sphinxsrv042".toList (fun _ => rfl) rfl rfl rfl rfl
  exact ⟨rfl, run, h1, h2, h3, h5.1, h5.2.2 rfl⟩

/-! ## C5: publishing a build a second time -/

/-- C5 at the active build of `master`, every command succeeding: the
destination of the rename is an existing directory, `os.Rename` answers
`EEXIST`, `isNotEmpty` rejects it, and the builder returns at the fatal rename
error instead of the duplicate check, also when the environment would have
answered `ENOTEMPTY`. Pointers and build outputs are as they were, before and
after the collection pass. -/
theorem duplicate_publish_takes_fatal_path :
    isNotEmpty (.linkError EEXIST) = false
    ∧ pathExists sampleConfig { masterState with temps := ["/tmp/sphinxsrv042".toList] }
        (buildOutputPath sampleConfig.buildOutputDir "master".toList "abc123".toList) = true
    ∧ (branchBuilder sampleConfig buildOk (masterReq "abc123".toList) masterState).map
        (fun r => (r.outcome, r.state.branches, r.state.outputs))
      = some (.renameFailed, masterState.branches, masterState.outputs)
    ∧ (branchBuilder sampleConfig { buildOk with renameErr := some (.linkError ENOTEMPTY) }
          (masterReq "abc123".toList) masterState).map (fun r => r.outcome)
      = some .renameFailed
    ∧ processRequest sampleConfig buildOk gcOk (masterReq "abc123".toList) masterState
      = some (.renameFailed, .cleaned, masterState)
    ∧ masterState.branches
      = [("master".toList, "/home/docs/.sphinxsrv/buildoutput/master-abc123".toList)]
    ∧ masterState.outputs = ["master-abc123".toList] := by
  refine ⟨by decide, by decide, by decide, by decide, by decide, by decide, by decide⟩

/-! ## C1: pointers and build outputs after a request -/

/-- C1, as the claim states it, fails: a pointer that dangles before the
request dangles after it; a collection pass that cannot enumerate the
pointers leaves the directory of a build whose pointer could not be created;
and a commit that leads out of `buildOutputDir` gets a pointer to a path that
is no entry of `buildOutputDir`. -/
theorem consistency_can_fail :
    (processRequest sampleConfig buildFetchFails gcOk (masterReq "def456".toList)
          danglingState = some (.fetchFailed, .cleaned, danglingState)
      ∧ ¬ Consistent sampleConfig danglingState)
    ∧ (Consistent sampleConfig masterState
      ∧ processRequest sampleConfig buildOk gcNoBranches (masterReq "def456".toList) masterState
          = some (.symlinkFailed, .activeFailed,
              { masterState with outputs := ["master-abc123".toList, "master-def456".toList] })
      ∧ ¬ Consistent sampleConfig
          { masterState with outputs := ["master-abc123".toList, "master-def456".toList] })
    ∧ (Consistent sampleConfig masterState
      ∧ processRequest sampleConfig buildOk gcOk (devReq "/../../x".toList) masterState
          = some (.deployed, .cleaned,
              { masterState with
                branches :=
                  masterState.branches ++ [("dev".toList, "/home/docs/.sphinxsrv/x".toList)] })
      ∧ ¬ Consistent sampleConfig
          { masterState with
            branches :=
              masterState.branches ++ [("dev".toList, "/home/docs/.sphinxsrv/x".toList)] }) := by
  refine ⟨⟨by decide, by decide⟩, ⟨by decide, by decide, by decide⟩,
    ⟨by decide, by decide, by decide⟩⟩

/-- C1, amended: from a state in which every branch pointer's target is the
path of a build output, the builder returns on every request, whatever steps
fail; and when the collection pass that follows runs to its end, then, unless
the run deployed a permanent path that names no entry of `buildOutputDir`,
every branch pointer's target is the path of a build output and every build
output's path is the target of a branch pointer. The permanent path names an
entry whenever the commit contains no `/`. -/
theorem consistent_after_request (cfg : Config) (benv : BuildEnv) (genv : GcEnv)
    (req : buildReq) (st : State) (hnd : ∀ e ∈ st.branches, e.2 ∈ outputPaths cfg st) :
    ∃ b o g st', branchNameOf req.Ref = some b
      ∧ processRequest cfg benv genv req st = some (o, g, st')
      ∧ (g = .cleaned →
          (o = .deployed →
            (entryName cfg (buildOutputPath cfg.buildOutputDir b req.Commit)).isSome = true) →
          Consistent cfg st')
      ∧ ('/' ∉ req.Commit →
          (entryName cfg (buildOutputPath cfg.buildOutputDir b req.Commit)).isSome = true) := by
  obtain ⟨run, hrun⟩ := branchBuilder_total cfg benv req st
  obtain ⟨b, hb, hbr, hout⟩ := branchBuilder_effect cfg benv req st run hrun
  have hnb : '/' ∉ b := by
    obtain ⟨_, _, b', hb', _, hnb', _⟩ := branchName_last_segment_aux req.Ref
    rw [hb] at hb'
    cases hb'
    exact hnb'
  refine ⟨b, run.outcome, (cleanupStaleBuildOutputs cfg genv run.state).1,
    (cleanupStaleBuildOutputs cfg genv run.state).2, hb, by simp [processRequest, hrun], ?_, ?_⟩
  · intro hg hentry
    have hsub : ∀ p ∈ outputPaths cfg st, p ∈ outputPaths cfg run.state := by
      intro p hp
      obtain ⟨n, hn, hpn⟩ := List.mem_map.1 hp
      refine List.mem_map.2 ⟨n, ?_, hpn⟩
      rcases hout with ⟨ho, _⟩ | ⟨m, _, ho⟩
      · rw [ho]; exact hn
      · rw [ho]; exact List.mem_append_left _ hn
    have hnd' : ∀ e ∈ run.state.branches, e.2 ∈ outputPaths cfg run.state := by
      intro e he
      rcases hbr with ⟨hsame, _⟩ | ⟨hdep, hnew⟩
      · rw [hsame] at he
        exact hsub _ (hnd e he)
      · rw [hnew] at he
        rcases List.mem_append.1 he with he | he
        · exact hsub _ (hnd e he)
        · rw [List.mem_singleton] at he
          subst he
          rcases hout with ⟨_, hnone⟩ | ⟨m, hm, ho⟩
          · have := hentry hdep
            rw [hnone hdep] at this
            exact absurd this (by simp)
          · refine List.mem_map.2 ⟨m, ?_, (entryName_eq_some cfg _ m hm).2⟩
            rw [ho]
            simp
    have hclean := cleanup_cleaned cfg genv run.state hg
    have hptr := cleanup_branches cfg genv run.state
    constructor
    · intro e he
      rw [hptr] at he
      obtain ⟨n, hn, hp⟩ := List.mem_map.1 (hnd' e he)
      refine List.mem_map.2 ⟨n, ?_, hp⟩
      rw [hclean]
      refine List.mem_filter.2 ⟨hn, ?_⟩
      simp only [decide_eq_true_eq]
      exact List.mem_map.2 ⟨e, he, hp.symm⟩
    · intro p hp
      obtain ⟨n, hn, hpn⟩ := List.mem_map.1 hp
      rw [hclean] at hn
      have := (List.mem_filter.1 hn).2
      simp only [decide_eq_true_eq] at this
      rw [← hpn]
      simpa [linkTargets, hptr] using this
  · intro hc
    rw [entryName_buildOutputPath cfg b req.Commit hnb hc]
    rfl

/-- C1, amended, at the first build of `dev` on a state with the pointer of
`master` and three unreferenced build outputs, which the collection pass
removes. -/
theorem consistent_after_request_witness :
    (∀ e ∈ staleState.branches, e.2 ∈ outputPaths sampleConfig staleState)
    ∧ staleState.branches ≠ []
    ∧ ∃ st', processRequest sampleConfig buildOk gcOk (devReq "444".toList) staleState
          = some (.deployed, .cleaned, st')
        ∧ st'.outputs = ["master-abc123".toList, "dev-444".toList]
        ∧ Consistent sampleConfig st' := by
  have hnd : ∀ e ∈ staleState.branches, e.2 ∈ outputPaths sampleConfig staleState := by decide
  obtain ⟨b, o, g, st', hb, h, hcons, hentry⟩ :=
    consistent_after_request sampleConfig buildOk gcOk (devReq "444".toList) staleState hnd
  have e : processRequest sampleConfig buildOk gcOk (devReq "444".toList) staleState
      = some (.deployed, .cleaned,
          { staleState with
            branches :=
              staleState.branches
                ++ [("dev".toList, "/home/docs/.sphinxsrv/buildoutput/dev-444".toList)]
            outputs := ["master-abc123".toList, "dev-444".toList] }) := by decide
  rw [h] at e
  simp only [Option.some.injEq, Prod.mk.injEq] at e
  obtain ⟨ho, hg, hst⟩ := e
  refine ⟨hnd, by decide, st', ?_, ?_, ?_⟩
  · rw [h, ho, hg]
  · rw [hst]
  · exact hcons hg (fun _ => hentry (by decide))

/-! ## C2: a new commit on a published branch -/

/-- C2 at a new commit on the published branch `master`, every command
succeeding: the new directory is renamed into `buildOutputDir`, the symlink
call fails because the pointer exists, the pointer keeps its old target, and
the collection pass removes the new directory and keeps the old one. -/
theorem new_commit_is_not_cut_over :
    (branchBuilder sampleConfig buildOk (masterReq "def456".toList) masterState).map
        (fun r => (r.outcome, r.state.branches, r.state.outputs))
      = some (.symlinkFailed, masterState.branches,
          ["master-abc123".toList, "master-def456".toList])
    ∧ processRequest sampleConfig buildOk gcOk (masterReq "def456".toList) masterState
      = some (.symlinkFailed, .cleaned, masterState)
    ∧ masterState.branches
      = [("master".toList, "/home/docs/.sphinxsrv/buildoutput/master-abc123".toList)]
    ∧ masterState.outputs = ["master-abc123".toList] := by
  refine ⟨by decide, by decide, by decide, by decide⟩

/-! ## C4: the first build after startup -/

/-- C4 at the state after startup: the bootstrap of `main` creates the mirror
directory, so the builder finds it and issues no clone; its commands are the
fetch, the merge, the clone into the temporary directory and `make html`. The
build output `master-abc123` is created, the pointer `master` targets it, and
both survive the collection pass. Without the bootstrap the clone is
issued. -/
theorem fresh_branch_issues_no_clone :
    mainBootstrap false false blankState = some { blankState with repo := some newDirInfo }
    ∧ (branchBuilder sampleConfig buildOk (masterReq "abc123".toList)
          { blankState with repo := some newDirInfo }).map (fun r => r.cmds)
      = some
          [gitFetch sampleConfig (masterReq "abc123".toList), gitMerge sampleConfig,
            gitCloneBranch sampleConfig "master".toList "/tmp/sphinxsrv042/repo".toList,
            makeHtml "/tmp/sphinxsrv042/repo".toList]
    ∧ (branchBuilder sampleConfig buildOk (masterReq "abc123".toList)
          { blankState with repo := some newDirInfo }).map
        (fun r => decide (gitClone sampleConfig (masterReq "abc123".toList) ∈ r.cmds))
      = some false
    ∧ processRequest sampleConfig buildOk gcOk (masterReq "abc123".toList)
          { blankState with repo := some newDirInfo }
      = some (.deployed, .cleaned, masterState)
    ∧ masterState.branches
      = [("master".toList, "/home/docs/.sphinxsrv/buildoutput/master-abc123".toList)]
    ∧ masterState.outputs = ["master-abc123".toList]
    ∧ (branchBuilder sampleConfig buildOk (masterReq "abc123".toList) blankState).map
        (fun r => decide (gitClone sampleConfig (masterReq "abc123".toList) ∈ r.cmds))
      = some true := by
  refine ⟨by decide, by decide, by decide, by decide, by decide, by decide, by decide⟩

/-! ## C10: the web hook -/

theorem whitelistLoop_eq (a : Str) (l : List Str) : whitelistLoop a l = decide (a ∈ l) := by
  induction l with
  | nil => simp [whitelistLoop]
  | cons w rest ih =>
    by_cases h : a = w <;> simp [whitelistLoop, h, ih]

/-- C10: `githubHook` submits a build request exactly when the method is
`POST`, the forwarded address is one of the three whitelisted addresses, the
payload decodes, and the decoded reference and repository URL are not empty;
the request submitted is then `submitBuildRequest(repository.url, ref, after)`.
For another method or another address the response is not-found and nothing is
submitted. -/
theorem githubHook_gating (decode : Str → Option githubWebHook) (req : HookRequest)
    (r : buildReq) :
    ((githubHook decode req).2 = some r ↔
      req.Method = "POST".toList
      ∧ (req.forwardedFor = "207.97.227.253".toList ∨ req.forwardedFor = "50.57.128.197".toList
          ∨ req.forwardedFor = "108.171.174.178".toList)
      ∧ ∃ wh, decode req.payload = some wh ∧ wh.Ref ≠ [] ∧ wh.Repo.URL ≠ []
          ∧ r = submitBuildRequest wh.Repo.URL wh.Ref wh.After)
    ∧ ((req.Method ≠ "POST".toList
          ∨ ¬ (req.forwardedFor = "207.97.227.253".toList
              ∨ req.forwardedFor = "50.57.128.197".toList
              ∨ req.forwardedFor = "108.171.174.178".toList)) →
        githubHook decode req = (.notFound, none)) := by
  have hw : ∀ a : Str, a ∈ whitelist ↔ (a = "207.97.227.253".toList
      ∨ a = "50.57.128.197".toList ∨ a = "108.171.174.178".toList) := by
    intro a
    simp [whitelist]
  have hpost : ∀ x y : HookResponse × Option buildReq,
      req.Method = "POST".toList → (if req.Method ≠ "POST".toList then x else y) = y :=
    fun x y h => if_neg (fun hne => hne h)
  have hother : ∀ x y : HookResponse × Option buildReq,
      req.Method ≠ "POST".toList → (if req.Method ≠ "POST".toList then x else y) = x :=
    fun x y h => if_pos h
  constructor
  · unfold githubHook
    by_cases hm : req.Method = "POST".toList
    · rw [hpost _ _ hm]
      simp only [whitelistLoop_eq]
      by_cases ha : req.forwardedFor ∈ whitelist
      · have ha' := (hw _).1 ha
        simp only [ha, decide_True, Bool.not_true, Bool.false_eq_true, if_false]
        cases hd : decode req.payload with
        | none =>
          constructor
          · intro h; exact absurd h (by simp)
          · rintro ⟨_, _, wh, h, _⟩; exact absurd h (by simp)
        | some wh =>
          by_cases h1 : wh.Ref = []
          · constructor
            · intro h; simp [h1] at h
            · rintro ⟨_, _, wh', h, h1', _⟩
              cases h
              exact absurd h1 h1'
          · by_cases h2 : wh.Repo.URL = []
            · constructor
              · intro h; simp [h2] at h
              · rintro ⟨_, _, wh', h, _, h2', _⟩
                cases h
                exact absurd h2 h2'
            · constructor
              · intro h
                simp only [List.length_eq_zero, h1, h2, or_self, if_false,
                  Option.some.injEq] at h
                exact ⟨hm, ha', wh, rfl, h1, h2, h.symm⟩
              · rintro ⟨_, _, wh', h, _, _, hr⟩
                cases h
                simp only [List.length_eq_zero, h1, h2, or_self, if_false, hr]
      · simp only [ha, decide_False, Bool.not_false, if_true]
        constructor
        · intro h; exact absurd h (by simp)
        · rintro ⟨_, h, _⟩; exact absurd ((hw _).2 h) ha
    · rw [hother _ _ hm]
      constructor
      · intro h; exact absurd h (by simp)
      · rintro ⟨h, _⟩; exact absurd h hm
  · intro h
    unfold githubHook
    by_cases hm : req.Method = "POST".toList
    · rw [hpost _ _ hm]
      rcases h with h | h
      · exact absurd hm h
      · have ha : req.forwardedFor ∉ whitelist := fun m => h ((hw _).1 m)
        simp only [whitelistLoop_eq, ha, decide_False, Bool.not_false, if_true]
    · rw [hother _ _ hm]

/-- C10 at a whitelisted `POST` of a push to `master`, and at a `GET`. -/
theorem githubHook_gating_witness :
    (githubHook samplePayload ⟨"POST".toList, "50.57.128.197".toList, []⟩).2
      = some (masterReq "abc123".toList)
    ∧ ("GET".toList ≠ "POST".toList
      ∧ githubHook samplePayload ⟨"GET".toList, "50.57.128.197".toList, []⟩
        = (.notFound, none)) := by
  refine ⟨?_, by decide, ?_⟩
  · exact (githubHook_gating samplePayload ⟨"POST".toList, "50.57.128.197".toList, []⟩
      (masterReq "abc123".toList)).1.2
      ⟨rfl, Or.inr (Or.inl rfl), _, rfl, by decide, by decide, rfl⟩
  · exact (githubHook_gating samplePayload ⟨"GET".toList, "50.57.128.197".toList, []⟩
      (masterReq "abc123".toList)).2 (Or.inl (by decide))

end SphinxSrv
